import Mathlib

/-!
# Verification of the `cclog` project-path decoder

Shallow embedding of `cclog_helper.py` (functions `decode_project_path`,
`decode_path_progressive`, `try_segment_combinations`, and the module-level
`_path_cache`).  Python strings are modelled as `List Char`; the filesystem
existence oracle `os.path.exists` is a parameter `FS := List Char → Bool`;
the process-wide dict `_path_cache` is an explicit association list threaded
through `decode_project_path`.
-/

namespace Cclog

/-- A Python string (a path, a segment, an encoded name). -/
abbrev Path := List Char

/-- The filesystem existence oracle, `os.path.exists`. -/
abbrev FS := Path → Bool

/-- `os.path.join(a, b)` for POSIX with exactly two arguments:
`if b.startswith("/"): return b; elif not a or a.endswith("/"): return a + b;
else: return a + "/" + b`. -/
def pathJoin (a b : Path) : Path :=
  if b.head? = some '/' then b
  else if a = [] ∨ a.getLast? = some '/' then a ++ b
  else a ++ '/' :: b

/-- The three candidate original characters tried at each join position,
in the order used by `itertools.product(["-", ".", "_"], ...)`. -/
def sepChoices : List Char := ['-', '.', '_']

/-- The list of tuples produced by `itertools.product` of `["-", ".", "_"]`
repeated `n` times, in iteration order: the leftmost position varies slowest,
and each position runs through `-`, `.`, `_` in that order. -/
def sepProduct : Nat → List (List Char)
  | 0 => [[]]
  | n + 1 => sepChoices.flatMap fun s => (sepProduct n).map fun rest => s :: rest

/-- `combined = segments[0]; for i, sep in enumerate(separators):
combined += sep + segments[i+1]` (from `try_segment_combinations`). -/
def combine (first : Path) (rest : List Path) (seps : List Char) : Path :=
  first ++ (List.zipWith (fun sp sg => sp :: sg) seps rest).flatten

/-- The `for separators in itertools.product(...)` loop body of
`try_segment_combinations`: build the combined segment, probe it,
return the first hit. -/
def tryCombos (fs : FS) (base first : Path) (rest : List Path) :
    List (List Char) → Option Path
  | [] => none
  | seps :: more =>
    let test := pathJoin base (combine first rest seps)
    if fs test then some test else tryCombos fs base first rest more

/-- The nonempty-first-segment half of `try_segment_combinations`:
`len(segments) == 1` probes the single segment as-is; `n ≥ 2` segments
enumerate every assignment of `-`, `.`, `_` to the `n-1` join positions in
`itertools.product` order and return the first probe that exists. -/
def tscNonempty (fs : FS) (base_path s0 : Path) (rest : List Path) :
    Option Path :=
  match rest with
  | [] =>
    let test := pathJoin base_path s0
    if fs test then some test else none
  | _ :: _ => tryCombos fs base_path s0 rest (sepProduct rest.length)

/-- `try_segment_combinations(base_path, segments)` from `cclog_helper.py`:
`None` on an empty list; a leading empty segment (the `--` marker) tries the
prefixes `.`, `_`, `-` in that order, recursing with the prefix glued onto
the next segment; a nonempty first segment goes through `tscNonempty`.
The source's recursive calls in the leading-empty-segment case always pass
a nonempty first segment (`prefix + remaining_segments[0]`), so they always
land in the nonempty-head half of the function; the recursion has depth one
and is written out here through `tscNonempty` (the theorem `tsc_special_eq`
below recovers the source's recursive equation verbatim).  The Python
`if result:` tests are modelled by `Option` (the function never returns an
empty string on the reachable arguments, so truthiness agrees with
`is not None`). -/
def try_segment_combinations (fs : FS) (base_path : Path) :
    List Path → Option Path
  | [] => none
  | s0 :: rest =>
    if s0 = [] then
      match rest with
      | [] =>
        let t1 := pathJoin base_path ['.']
        if fs t1 then some t1 else
        let t2 := pathJoin base_path ['_']
        if fs t2 then some t2 else
        let t3 := pathJoin base_path ['-']
        if fs t3 then some t3 else none
      | r0 :: rtail =>
        match tscNonempty fs base_path ('.' :: r0) rtail with
        | some result => some result
        | none =>
          match tscNonempty fs base_path ('_' :: r0) rtail with
          | some result => some result
          | none => tscNonempty fs base_path ('-' :: r0) rtail
    else tscNonempty fs base_path s0 rest

theorem tsc_nonempty_head {fs : FS} {base_path s0 : Path} {rest : List Path}
    (h : s0 ≠ []) :
    try_segment_combinations fs base_path (s0 :: rest) =
      tscNonempty fs base_path s0 rest := by
  simp only [try_segment_combinations, if_neg h]

/-- The recursive equation satisfied by the source in the
leading-empty-segment case. -/
theorem tsc_special_eq {fs : FS} {base_path r0 : Path} {rtail : List Path} :
    try_segment_combinations fs base_path ([] :: r0 :: rtail) =
      match try_segment_combinations fs base_path (('.' :: r0) :: rtail) with
      | some result => some result
      | none =>
        match try_segment_combinations fs base_path (('_' :: r0) :: rtail) with
        | some result => some result
        | none => try_segment_combinations fs base_path (('-' :: r0) :: rtail)
      := by
  rw [try_segment_combinations]
  rw [tsc_nonempty_head (by simp), tsc_nonempty_head (by simp),
    tsc_nonempty_head (by simp)]
  rfl

/-- `encoded.find("-", i)` and the slice `encoded[i:next_dash]`, packaged
together: the characters before the first dash, and (when a dash exists)
the characters after it. -/
def splitAtDash : List Char → Path × Option (List Char)
  | [] => ([], none)
  | c :: cs =>
    if c = '-' then ([], some cs)
    else
      let r := splitAtDash cs
      (c :: r.1, r.2)

theorem splitAtDash_snd_length {e rest : List Char}
    (h : (splitAtDash e).2 = some rest) : rest.length < e.length := by
  induction e generalizing rest with
  | nil => simp [splitAtDash] at h
  | cons c cs ih =>
    by_cases hc : c = '-'
    · simp [splitAtDash, hc] at h
      simp [← h]
    · simp [splitAtDash, hc] at h
      exact Nat.lt_trans (ih h) (by simp)

/-- `"-".join(segments)`. -/
def joinDash : List Path → Path
  | [] => []
  | [s] => s
  | s :: t :: ts => s ++ '-' :: joinDash (t :: ts)

/-- The `while i < len(encoded)` loop of `decode_path_progressive`, with the
loop state (`current_path`, `unmatched_segments`) as arguments and the
cursor replaced by the not-yet-scanned suffix of the encoded string.
Each branch mirrors the source lines 508-566:
an exhausted input returns `current_path`; a final dashless segment either
resolves/falls back through `try_segment_combinations` (when unmatched
segments are pending or the segment is empty) or is appended without any
probe; a dash-bounded segment is either accumulated or greedily confirmed
against the oracle exactly as in the source. -/
def decodeLoop (fs : FS) (cp : Path) (unm : List Path) (e : List Char) : Path :=
  if he : e = [] then cp
  else
    let segment := (splitAtDash e).1
    match hr : (splitAtDash e).2 with
    | none =>
      if unm ≠ [] ∨ segment = [] then
        let unm2 := if segment ≠ [] then unm ++ [segment] else unm
        match try_segment_combinations fs cp unm2 with
        | some result => result
        | none => cp ++ '/' :: joinDash unm2
      else cp ++ '/' :: segment
    | some rest =>
      if unm ≠ [] then
        let unm2 := if segment ≠ [] then unm ++ [segment] else unm
        match try_segment_combinations fs cp unm2 with
        | some result => decodeLoop fs result [] rest
        | none => decodeLoop fs cp unm2 rest
      else
        if segment ≠ [] ∧ fs (cp ++ '/' :: segment) then
          decodeLoop fs (cp ++ '/' :: segment) [] rest
        else
          decodeLoop fs cp (unm ++ [segment]) rest
  termination_by e.length
  decreasing_by
    all_goals exact splitAtDash_snd_length hr

/-- `decode_path_progressive(encoded)`: run the scanner loop from the empty
`current_path` and no unmatched segments. -/
def decode_path_progressive (fs : FS) (encoded : List Char) : Path :=
  decodeLoop fs [] [] encoded

/-- The module-level `_path_cache` dict, as an association list. -/
abbrev Cache := List (List Char × Path)

/-- `encoded_name in _path_cache` / `_path_cache[encoded_name]`. -/
def cacheLookup : Cache → List Char → Option Path
  | [], _ => none
  | (k, v) :: rest, key => if k = key then some v else cacheLookup rest key

/-- `decode_project_path(encoded_name)`: serve from the cache when present;
return names without a leading dash unchanged; otherwise strip the leading
dash, run the progressive decode, and memoize the result.  The mutated
cache is returned alongside the decoded path. -/
def decode_project_path (fs : FS) (cache : Cache) (encoded_name : List Char) :
    Path × Cache :=
  match cacheLookup cache encoded_name with
  | some v => (v, cache)
  | none =>
    if ¬(encoded_name.head? = some '-') then
      (encoded_name, (encoded_name, encoded_name) :: cache)
    else
      let result := decode_path_progressive fs encoded_name.tail
      (result, (encoded_name, result) :: cache)

/-- The forward encoding convention (source comment lines 471-474 and the
test helper): replace each of `/`, `.`, `_` by `-`. -/
def encode_path (p : Path) : Path :=
  p.map fun c => if c = '/' ∨ c = '.' ∨ c = '_' then '-' else c

/-- `/c₁/c₂/…/cₖ` built from a list of components. -/
def absPath (cs : List Path) : Path :=
  (cs.map fun c => '/' :: c).flatten

/-- The loop state (`current_path`, `unmatched_segments`) held by the
scanner at the moment it leaves its dash-bounded stepping phase: when the
cursor is exhausted (trailing delimiter or empty input), or when the final
dashless segment is about to be processed.  The stepping branches mirror
`decodeLoop` exactly. -/
def decodeLoopState (fs : FS) (cp : Path) (unm : List Path) (e : List Char) :
    Path × List Path :=
  if e = [] then (cp, unm)
  else
    let segment := (splitAtDash e).1
    match hr : (splitAtDash e).2 with
    | none => (cp, unm)
    | some rest =>
      if unm ≠ [] then
        let unm2 := if segment ≠ [] then unm ++ [segment] else unm
        match try_segment_combinations fs cp unm2 with
        | some result => decodeLoopState fs result [] rest
        | none => decodeLoopState fs cp unm2 rest
      else
        if segment ≠ [] ∧ fs (cp ++ '/' :: segment) then
          decodeLoopState fs (cp ++ '/' :: segment) [] rest
        else
          decodeLoopState fs cp (unm ++ [segment]) rest
  termination_by e.length
  decreasing_by all_goals exact splitAtDash_snd_length hr

/-- The final dashless segment of an encoded string: everything after the
last delimiter occurrence (the whole string when it has no delimiter). -/
def lastSeg (e : List Char) : List Char :=
  match hr : (splitAtDash e).2 with
  | none => (splitAtDash e).1
  | some rest => lastSeg rest
  termination_by e.length
  decreasing_by exact splitAtDash_snd_length hr

/-- The string has no two consecutive `/` characters. -/
def NoDoubleSlash (l : Path) : Prop :=
  l.Chain' fun a b => ¬(a = '/' ∧ b = '/')

/-- Executable scan for a doubled separator. -/
def hasDoubleSlash : List Char → Bool
  | [] => false
  | [_] => false
  | a :: b :: rest => (a = '/' && b = '/') || hasDoubleSlash (b :: rest)

theorem hasDoubleSlash_eq_false_iff {l : Path} :
    hasDoubleSlash l = false ↔ NoDoubleSlash l := by
  induction l with
  | nil => simp [hasDoubleSlash, NoDoubleSlash]
  | cons a t ih =>
    cases t with
    | nil => simp [hasDoubleSlash, NoDoubleSlash]
    | cons b r =>
      rw [NoDoubleSlash, List.chain'_cons, hasDoubleSlash]
      rw [NoDoubleSlash] at ih
      simp only [Bool.or_eq_false_iff, Bool.and_eq_false_iff, ih]
      constructor
      · rintro ⟨h1, h2⟩
        refine ⟨fun hc => ?_, h2⟩
        rcases h1 with h1 | h1 <;> simp [hc.1, hc.2] at h1
      · rintro ⟨h1, h2⟩
        refine ⟨?_, h2⟩
        by_cases ha : a = '/'
        · by_cases hb : b = '/'
          · exact absurd ⟨ha, hb⟩ h1
          · exact Or.inr (by simp [hb])
        · exact Or.inl (by simp [ha])

instance (l : Path) : Decidable (NoDoubleSlash l) :=
  decidable_of_iff _ hasDoubleSlash_eq_false_iff

/-! ## Basic facts about the scanner's segment extraction -/

theorem splitAtDash_snd_none {e : List Char}
    (h : (splitAtDash e).2 = none) : (splitAtDash e).1 = e := by
  induction e with
  | nil => simp [splitAtDash]
  | cons c cs ih =>
    by_cases hc : c = '-'
    · simp [splitAtDash, hc] at h
    · simp [splitAtDash, hc] at h ⊢
      exact ih h

theorem splitAtDash_of_not_mem {e : List Char} (h : '-' ∉ e) :
    splitAtDash e = (e, none) := by
  induction e with
  | nil => simp [splitAtDash]
  | cons c cs ih =>
    simp only [List.mem_cons, not_or] at h
    have hc : c ≠ '-' := fun hh => h.1 hh.symm
    simp [splitAtDash, hc, ih h.2]

theorem splitAtDash_append {s : List Char} (t : List Char) (h : '-' ∉ s) :
    splitAtDash (s ++ '-' :: t) = (s, some t) := by
  induction s with
  | nil => simp [splitAtDash]
  | cons c cs ih =>
    simp only [List.mem_cons, not_or] at h
    have hc : c ≠ '-' := fun hh => h.1 hh.symm
    simp [splitAtDash, hc, ih h.2]

theorem splitAtDash_mem_fst {e : List Char} {c : Char}
    (h : c ∈ (splitAtDash e).1) : c ∈ e := by
  induction e with
  | nil => simp [splitAtDash] at h
  | cons a cs ih =>
    by_cases ha : a = '-'
    · simp [splitAtDash, ha] at h
    · simp only [splitAtDash, if_neg ha, List.mem_cons] at h
      rcases h with h | h
      · simp [h]
      · exact List.mem_cons_of_mem _ (ih h)

theorem splitAtDash_mem_snd {e rest : List Char} {c : Char}
    (h : (splitAtDash e).2 = some rest) (hc : c ∈ rest) : c ∈ e := by
  induction e generalizing rest with
  | nil => simp [splitAtDash] at h
  | cons a cs ih =>
    by_cases ha : a = '-'
    · simp [splitAtDash, ha] at h
      exact List.mem_cons_of_mem _ (h ▸ hc)
    · simp [splitAtDash, ha] at h
      exact List.mem_cons_of_mem _ (ih h hc)

theorem splitAtDash_getLast {e rest : List Char}
    (h : (splitAtDash e).2 = some rest) (hne : rest ≠ []) :
    rest.getLast? = e.getLast? := by
  induction e generalizing rest with
  | nil => simp [splitAtDash] at h
  | cons a cs ih =>
    by_cases ha : a = '-'
    · simp [splitAtDash, ha] at h
      subst h
      cases cs with
      | nil => simp at hne
      | cons b bs => simp [List.getLast?_cons_cons]
    · simp [splitAtDash, ha] at h
      have hcs : cs ≠ [] := by
        intro hnil
        rw [hnil] at h
        simp [splitAtDash] at h
      rw [ih h hne]
      cases cs with
      | nil => simp at hcs
      | cons b bs => simp [List.getLast?_cons_cons]

theorem splitAtDash_of_getLast {e : List Char} (h : e.getLast? = some '-') :
    ∃ rest, (splitAtDash e).2 = some rest := by
  induction e with
  | nil => simp at h
  | cons a cs ih =>
    by_cases ha : a = '-'
    · exact ⟨cs, by simp [splitAtDash, ha]⟩
    · cases cs with
      | nil => simp [List.getLast?] at h; exact absurd h ha
      | cons b bs =>
        rw [List.getLast?_cons_cons] at h
        obtain ⟨rest, hrest⟩ := ih h
        refine ⟨rest, ?_⟩
        simpa [splitAtDash, ha] using hrest

/-! ## Separator-structure invariants -/

/-- `l` has no doubled separator and does not end with a separator: the
shape the confirmed path keeps throughout a slash-free decode. -/
def GoodBase (l : Path) : Prop :=
  NoDoubleSlash l ∧ l.getLast? ≠ some '/'

theorem goodBase_nil : GoodBase [] := by
  constructor <;> simp [NoDoubleSlash]

theorem lastMem {α : Type} {l : List α} {a : α} (h : l.getLast? = some a) :
    a ∈ l := by
  obtain ⟨hne, rfl⟩ := List.mem_getLast?_eq_getLast h
  exact List.getLast_mem hne

theorem nds_of_not_mem {l : Path} (h : '/' ∉ l) : NoDoubleSlash l := by
  induction l with
  | nil => simp [NoDoubleSlash]
  | cons a t ih =>
    simp only [List.mem_cons, not_or] at h
    rw [NoDoubleSlash, List.chain'_cons']
    exact ⟨fun y _ hc => h.1 hc.1.symm, ih h.2⟩

theorem goodBase_of_not_mem {l : Path} (h : '/' ∉ l) : GoodBase l := by
  refine ⟨nds_of_not_mem h, fun hc => h ?_⟩
  exact lastMem hc

theorem nds_append_slash {cp t : Path} (h : GoodBase cp) (ht : '/' ∉ t) :
    NoDoubleSlash (cp ++ '/' :: t) := by
  rw [NoDoubleSlash, List.chain'_append]
  refine ⟨h.1, ?_, ?_⟩
  · rw [List.chain'_cons']
    refine ⟨fun y hy hc => ht ?_, nds_of_not_mem ht⟩
    rw [← hc.2]
    exact List.mem_of_mem_head? hy
  · intro x hx y _ hc
    rw [hc.1] at hx
    exact h.2 hx

theorem goodBase_append {cp t : Path} (h : GoodBase cp) (ht : '/' ∉ t)
    (hne : t ≠ []) : GoodBase (cp ++ '/' :: t) := by
  refine ⟨nds_append_slash h ht, fun hc => ht ?_⟩
  have : cp ++ '/' :: t = (cp ++ ['/']) ++ t := by simp
  rw [this, List.getLast?_append_of_ne_nil _ hne] at hc
  exact lastMem hc

theorem pathJoin_good {a b : Path} (ha : GoodBase a) (hb : '/' ∉ b)
    (hne : b ≠ []) : GoodBase (pathJoin a b) := by
  unfold pathJoin
  have hhead : ¬b.head? = some '/' := by
    intro hc
    exact hb (List.mem_of_mem_head? hc)
  rw [if_neg hhead]
  by_cases hnil : a = []
  · rw [if_pos (Or.inl hnil), hnil, List.nil_append]
    exact goodBase_of_not_mem hb
  · rw [if_neg (by simp [hnil, ha.2])]
    exact goodBase_append ha hb hne

theorem sepProduct_mem {n : Nat} {seps : List Char}
    (h : seps ∈ sepProduct n) : ∀ c ∈ seps, c ∈ sepChoices := by
  induction n generalizing seps with
  | zero =>
    simp [sepProduct] at h
    simp [h]
  | succ m ih =>
    simp only [sepProduct, List.mem_flatMap, List.mem_map] at h
    obtain ⟨s, hs, rest, hrest, rfl⟩ := h
    intro c hc
    rcases List.mem_cons.mp hc with rfl | hc
    · exact hs
    · exact ih hrest c hc

theorem mem_zipWith_cons {seps : List Char} {rest : List Path} {l : Path}
    (h : l ∈ List.zipWith (fun sp sg => sp :: sg) seps rest) :
    ∃ sp sg, sp ∈ seps ∧ sg ∈ rest ∧ l = sp :: sg := by
  induction seps generalizing rest with
  | nil => simp at h
  | cons a as ih =>
    cases rest with
    | nil => simp at h
    | cons b bs =>
      simp only [List.zipWith_cons_cons, List.mem_cons] at h
      rcases h with rfl | h
      · exact ⟨a, b, by simp, by simp, rfl⟩
      · obtain ⟨sp, sg, h1, h2, h3⟩ := ih h
        exact ⟨sp, sg, List.mem_cons_of_mem _ h1, List.mem_cons_of_mem _ h2, h3⟩

theorem combine_not_mem {first : Path} {rest : List Path} {seps : List Char}
    (h1 : '/' ∉ first) (h2 : ∀ s ∈ rest, '/' ∉ s)
    (h3 : ∀ c ∈ seps, c ∈ sepChoices) : '/' ∉ combine first rest seps := by
  unfold combine
  rw [List.mem_append]
  rintro (hc | hc)
  · exact h1 hc
  · rw [List.mem_flatten] at hc
    obtain ⟨l, hl, hcl⟩ := hc
    obtain ⟨sp, sg, hsp, hsg, rfl⟩ := mem_zipWith_cons hl
    rcases List.mem_cons.mp hcl with rfl | hcl
    · have := h3 _ hsp
      simp [sepChoices] at this
    · exact h2 _ hsg hcl

theorem combine_ne_nil {first : Path} {rest : List Path} {seps : List Char}
    (h : first ≠ []) : combine first rest seps ≠ [] := by
  unfold combine
  simp [h]

theorem tryCombos_exists {fs : FS} {base first r : Path} {rest : List Path}
    {prods : List (List Char)} (h : tryCombos fs base first rest prods = some r) :
    fs r = true := by
  induction prods with
  | nil => simp [tryCombos] at h
  | cons seps more ih =>
    rw [tryCombos] at h
    by_cases hfs : fs (pathJoin base (combine first rest seps)) = true
    · simp [hfs] at h
      rw [← h]
      exact hfs
    · simp [Bool.not_eq_true] at hfs
      simp [hfs] at h
      exact ih h

theorem tryCombos_good {fs : FS} {base first r : Path} {rest : List Path}
    {prods : List (List Char)}
    (h : tryCombos fs base first rest prods = some r)
    (hb : GoodBase base) (h1 : '/' ∉ first) (hf : first ≠ [])
    (h2 : ∀ s ∈ rest, '/' ∉ s)
    (hp : ∀ seps ∈ prods, ∀ c ∈ seps, c ∈ sepChoices) : GoodBase r := by
  induction prods with
  | nil => simp [tryCombos] at h
  | cons seps more ih =>
    rw [tryCombos] at h
    by_cases hfs : fs (pathJoin base (combine first rest seps)) = true
    · simp [hfs] at h
      rw [← h]
      exact pathJoin_good hb
        (combine_not_mem h1 h2 (hp seps (List.mem_cons_self _ _)))
        (combine_ne_nil hf)
    · simp [Bool.not_eq_true] at hfs
      simp [hfs] at h
      exact ih h fun s hs => hp s (List.mem_cons_of_mem _ hs)

theorem segs_consPrefix {p : Char} (hp : p ≠ '/') {r0 : Path} {rtail : List Path}
    (hs : ∀ s ∈ ([] : Path) :: r0 :: rtail, '/' ∉ s) :
    ∀ s ∈ (p :: r0) :: rtail, '/' ∉ s := by
  intro s hmem
  rcases List.mem_cons.mp hmem with rfl | hmem
  · intro hc
    rcases List.mem_cons.mp hc with hc | hc
    · exact hp hc.symm
    · exact hs r0 (by simp) hc
  · exact hs s (by simp [hmem])

theorem tscNonempty_exists {fs : FS} {base s0 r : Path} {rest : List Path}
    (h : tscNonempty fs base s0 rest = some r) : fs r = true := by
  cases rest with
  | nil =>
    by_cases hfs : fs (pathJoin base s0) = true
    · simp only [tscNonempty, hfs, if_true] at h
      rw [Option.some_inj] at h
      subst h
      exact hfs
    · rw [Bool.not_eq_true] at hfs
      simp [tscNonempty, hfs] at h
  | cons a l => exact tryCombos_exists h

theorem tscNonempty_good {fs : FS} {base s0 r : Path} {rest : List Path}
    (h : tscNonempty fs base s0 rest = some r) (hb : GoodBase base)
    (h0 : '/' ∉ s0) (h0ne : s0 ≠ []) (hrest : ∀ s ∈ rest, '/' ∉ s) :
    GoodBase r := by
  cases rest with
  | nil =>
    by_cases hfs : fs (pathJoin base s0) = true
    · simp only [tscNonempty, hfs, if_true] at h
      rw [Option.some_inj] at h
      subst h
      exact pathJoin_good hb h0 h0ne
    · rw [Bool.not_eq_true] at hfs
      simp [tscNonempty, hfs] at h
  | cons a l =>
    exact tryCombos_good h hb h0 h0ne hrest fun seps hseps => sepProduct_mem hseps

theorem tsc_exists {fs : FS} {base r : Path} {segs : List Path}
    (h : try_segment_combinations fs base segs = some r) : fs r = true := by
  cases segs with
  | nil => simp [try_segment_combinations] at h
  | cons s0 rest =>
    by_cases hs0 : s0 = []
    · subst hs0
      cases rest with
      | nil =>
        by_cases h1 : fs (pathJoin base ['.']) = true
        · simp [try_segment_combinations, h1] at h
          subst h
          exact h1
        · by_cases h2 : fs (pathJoin base ['_']) = true
          · simp [try_segment_combinations, h1, h2] at h
            subst h
            exact h2
          · by_cases h3 : fs (pathJoin base ['-']) = true
            · simp [try_segment_combinations, h1, h2, h3] at h
              subst h
              exact h3
            · simp [try_segment_combinations, h1, h2, h3] at h
      | cons r0 rtail =>
        cases h1 : tscNonempty fs base ('.' :: r0) rtail with
        | some result =>
          simp [try_segment_combinations, h1] at h
          subst h
          exact tscNonempty_exists h1
        | none =>
          cases h2 : tscNonempty fs base ('_' :: r0) rtail with
          | some result =>
            simp [try_segment_combinations, h1, h2] at h
            subst h
            exact tscNonempty_exists h2
          | none =>
            simp [try_segment_combinations, h1, h2] at h
            exact tscNonempty_exists h
    · rw [tsc_nonempty_head hs0] at h
      exact tscNonempty_exists h

theorem tsc_good {fs : FS} {base r : Path} {segs : List Path}
    (h : try_segment_combinations fs base segs = some r)
    (hb : GoodBase base) (hs : ∀ s ∈ segs, '/' ∉ s) : GoodBase r := by
  cases segs with
  | nil => simp [try_segment_combinations] at h
  | cons s0 rest =>
    by_cases hs0 : s0 = []
    · subst hs0
      cases rest with
      | nil =>
        by_cases h1 : fs (pathJoin base ['.']) = true
        · simp [try_segment_combinations, h1] at h
          subst h
          exact pathJoin_good hb (by decide) (by decide)
        · by_cases h2 : fs (pathJoin base ['_']) = true
          · simp [try_segment_combinations, h1, h2] at h
            subst h
            exact pathJoin_good hb (by decide) (by decide)
          · by_cases h3 : fs (pathJoin base ['-']) = true
            · simp [try_segment_combinations, h1, h2, h3] at h
              subst h
              exact pathJoin_good hb (by decide) (by decide)
            · simp [try_segment_combinations, h1, h2, h3] at h
      | cons r0 rtail =>
        have hr0 : ∀ p : Char, p ≠ '/' → '/' ∉ p :: r0 := by
          intro p hp hc
          rcases List.mem_cons.mp hc with hc | hc
          · exact hp hc.symm
          · exact hs r0 (by simp) hc
        have hrt : ∀ x ∈ rtail, '/' ∉ x := fun x hx => hs x (by simp [hx])
        cases h1 : tscNonempty fs base ('.' :: r0) rtail with
        | some result =>
          simp [try_segment_combinations, h1] at h
          subst h
          exact tscNonempty_good h1 hb (hr0 '.' (by decide)) (by simp) hrt
        | none =>
          cases h2 : tscNonempty fs base ('_' :: r0) rtail with
          | some result =>
            simp [try_segment_combinations, h1, h2] at h
            subst h
            exact tscNonempty_good h2 hb (hr0 '_' (by decide)) (by simp) hrt
          | none =>
            simp [try_segment_combinations, h1, h2] at h
            exact tscNonempty_good h hb (hr0 '-' (by decide)) (by simp) hrt
    · rw [tsc_nonempty_head hs0] at h
      exact tscNonempty_good h hb (hs s0 (by simp)) hs0
        fun x hx => hs x (by simp [hx])

theorem joinDash_not_mem {l : List Path} (h : ∀ s ∈ l, '/' ∉ s) :
    '/' ∉ joinDash l := by
  induction l with
  | nil => simp [joinDash]
  | cons s rest ih =>
    cases rest with
    | nil => simpa [joinDash] using h s (by simp)
    | cons t ts =>
      rw [joinDash]
      intro hc
      rcases List.mem_append.mp hc with hc | hc
      · exact h s (by simp) hc
      · rcases List.mem_cons.mp hc with hc | hc
        · exact absurd hc (by decide)
        · exact ih (fun x hx => h x (List.mem_cons_of_mem _ hx)) hc

theorem decodeLoop_nil {fs : FS} {cp : Path} {unm : List Path} :
    decodeLoop fs cp unm [] = cp := by
  rw [decodeLoop]
  simp

theorem decodeLoop_step_greedy {fs : FS} {cp : Path} {unm : List Path}
    {e rest : List Char} (hne : e ≠ []) (hr : (splitAtDash e).2 = some rest)
    (hu : unm = []) (hfs : (splitAtDash e).1 ≠ [] ∧ fs (cp ++ '/' :: (splitAtDash e).1) = true) :
    decodeLoop fs cp unm e = decodeLoop fs (cp ++ '/' :: (splitAtDash e).1) [] rest := by
  conv_lhs => rw [decodeLoop]
  simp only [dif_neg hne, hr, hu]
  split
  · next heq => rw [heq] at hr; exact absurd hr (by simp)
  · next r' heq =>
    rw [heq, Option.some_inj] at hr
    subst hr
    simp [hfs.1, hfs.2]

theorem decodeLoop_step_collect {fs : FS} {cp : Path} {unm : List Path}
    {e rest : List Char} (hne : e ≠ []) (hr : (splitAtDash e).2 = some rest)
    (hu : unm = [])
    (hfs : ¬((splitAtDash e).1 ≠ [] ∧ fs (cp ++ '/' :: (splitAtDash e).1) = true)) :
    decodeLoop fs cp unm e = decodeLoop fs cp (unm ++ [(splitAtDash e).1]) rest := by
  conv_lhs => rw [decodeLoop]
  simp only [dif_neg hne, hr, hu]
  split
  · next heq => rw [heq] at hr; exact absurd hr (by simp)
  · next r' heq =>
    rw [heq, Option.some_inj] at hr
    subst hr
    simp [hfs]

theorem decodeLoop_step_pending {fs : FS} {cp : Path} {unm : List Path}
    {e rest : List Char} (hne : e ≠ []) (hr : (splitAtDash e).2 = some rest)
    (hu : unm ≠ []) :
    decodeLoop fs cp unm e =
      (let unm2 := if (splitAtDash e).1 ≠ [] then unm ++ [(splitAtDash e).1] else unm
       match try_segment_combinations fs cp unm2 with
       | some result => decodeLoop fs result [] rest
       | none => decodeLoop fs cp unm2 rest) := by
  conv_lhs => rw [decodeLoop]
  simp only [dif_neg hne, hr]
  split
  · next heq => rw [heq] at hr; exact absurd hr (by simp)
  · next r' heq =>
    rw [heq, Option.some_inj] at hr
    subst hr
    simp [if_pos hu]

theorem decodeLoop_last_plain {fs : FS} {cp : Path} {unm : List Path}
    {e : List Char} (hne : e ≠ []) (hr : (splitAtDash e).2 = none)
    (hcond : ¬(unm ≠ [] ∨ (splitAtDash e).1 = [])) :
    decodeLoop fs cp unm e = cp ++ '/' :: (splitAtDash e).1 := by
  conv_lhs => rw [decodeLoop]
  simp only [dif_neg hne, hr]
  split
  · next heq => simp [if_neg hcond]
  · next r' heq => rw [heq] at hr; exact absurd hr (by simp)

theorem decodeLoop_last_pending {fs : FS} {cp : Path} {unm : List Path}
    {e : List Char} (hne : e ≠ []) (hr : (splitAtDash e).2 = none)
    (hcond : unm ≠ [] ∨ (splitAtDash e).1 = []) :
    decodeLoop fs cp unm e =
      (let unm2 := if (splitAtDash e).1 ≠ [] then unm ++ [(splitAtDash e).1] else unm
       match try_segment_combinations fs cp unm2 with
       | some result => result
       | none => cp ++ '/' :: joinDash unm2) := by
  conv_lhs => rw [decodeLoop]
  simp only [dif_neg hne, hr]
  split
  · next heq => simp [if_pos hcond]
  · next r' heq => rw [heq] at hr; exact absurd hr (by simp)

theorem decodeLoop_last_pending_some {fs : FS} {cp result : Path}
    {unm : List Path} {e : List Char} (hne : e ≠ [])
    (hr : (splitAtDash e).2 = none)
    (hcond : unm ≠ [] ∨ (splitAtDash e).1 = [])
    (hres : try_segment_combinations fs cp
      (if (splitAtDash e).1 ≠ [] then unm ++ [(splitAtDash e).1] else unm) =
        some result) :
    decodeLoop fs cp unm e = result := by
  rw [decodeLoop_last_pending hne hr hcond]
  simp only [hres]

theorem decodeLoop_last_pending_none {fs : FS} {cp : Path}
    {unm : List Path} {e : List Char} (hne : e ≠ [])
    (hr : (splitAtDash e).2 = none)
    (hcond : unm ≠ [] ∨ (splitAtDash e).1 = [])
    (hres : try_segment_combinations fs cp
      (if (splitAtDash e).1 ≠ [] then unm ++ [(splitAtDash e).1] else unm) =
        none) :
    decodeLoop fs cp unm e = cp ++ '/' :: joinDash
      (if (splitAtDash e).1 ≠ [] then unm ++ [(splitAtDash e).1] else unm) := by
  rw [decodeLoop_last_pending hne hr hcond]
  simp only [hres]

theorem decodeLoop_step_pending_some {fs : FS} {cp result : Path}
    {unm : List Path} {e rest : List Char} (hne : e ≠ [])
    (hr : (splitAtDash e).2 = some rest) (hu : unm ≠ [])
    (hres : try_segment_combinations fs cp
      (if (splitAtDash e).1 ≠ [] then unm ++ [(splitAtDash e).1] else unm) =
        some result) :
    decodeLoop fs cp unm e = decodeLoop fs result [] rest := by
  rw [decodeLoop_step_pending hne hr hu]
  simp only [hres]

theorem decodeLoop_step_pending_none {fs : FS} {cp : Path}
    {unm : List Path} {e rest : List Char} (hne : e ≠ [])
    (hr : (splitAtDash e).2 = some rest) (hu : unm ≠ [])
    (hres : try_segment_combinations fs cp
      (if (splitAtDash e).1 ≠ [] then unm ++ [(splitAtDash e).1] else unm) =
        none) :
    decodeLoop fs cp unm e = decodeLoop fs cp
      (if (splitAtDash e).1 ≠ [] then unm ++ [(splitAtDash e).1] else unm)
      rest := by
  rw [decodeLoop_step_pending hne hr hu]
  simp only [hres]

theorem unm2_not_mem {unm : List Path} {seg : Path}
    (hu : ∀ s ∈ unm, '/' ∉ s) (hseg : '/' ∉ seg) :
    ∀ s ∈ (if seg ≠ [] then unm ++ [seg] else unm), '/' ∉ s := by
  split
  · intro s hs
    rcases List.mem_append.mp hs with hs | hs
    · exact hu s hs
    · rw [List.mem_singleton.mp hs]
      exact hseg
  · exact hu

theorem decodeLoop_nds {fs : FS} {cp0 : Path} {unm0 : List Path} {e0 : List Char}
    (hb : GoodBase cp0) (hu : ∀ s ∈ unm0, '/' ∉ s) (he : '/' ∉ e0) :
    NoDoubleSlash (decodeLoop fs cp0 unm0 e0) := by
  induction cp0, unm0, e0 using decodeLoop.induct fs
  case case1 cp unm =>
    rw [decodeLoop_nil]
    exact hb.1
  case case2 cp unm e hne seg hr hcond unm2 result hres =>
    have hseg : '/' ∉ (splitAtDash e).1 := fun hc => he (splitAtDash_mem_fst hc)
    have hres' : try_segment_combinations fs cp
        (if (splitAtDash e).1 ≠ [] then unm ++ [(splitAtDash e).1] else unm) =
          some result := hres
    rw [decodeLoop_last_pending_some hne hr hcond hres']
    exact (tsc_good hres' hb (unm2_not_mem hu hseg)).1
  case case3 cp unm e hne seg hr hcond unm2 hres =>
    have hseg : '/' ∉ (splitAtDash e).1 := fun hc => he (splitAtDash_mem_fst hc)
    have hres' : try_segment_combinations fs cp
        (if (splitAtDash e).1 ≠ [] then unm ++ [(splitAtDash e).1] else unm) =
          none := hres
    rw [decodeLoop_last_pending_none hne hr hcond hres']
    exact nds_append_slash hb (joinDash_not_mem (unm2_not_mem hu hseg))
  case case4 cp unm e hne seg hr hcond =>
    have hseg : '/' ∉ (splitAtDash e).1 := fun hc => he (splitAtDash_mem_fst hc)
    rw [decodeLoop_last_plain hne hr hcond]
    exact nds_append_slash hb hseg
  case case5 cp unm e hne seg rest hr hunm unm2 result hres ih =>
    have hseg : '/' ∉ (splitAtDash e).1 := fun hc => he (splitAtDash_mem_fst hc)
    have hrest : '/' ∉ rest := fun hc => he (splitAtDash_mem_snd hr hc)
    have hres' : try_segment_combinations fs cp
        (if (splitAtDash e).1 ≠ [] then unm ++ [(splitAtDash e).1] else unm) =
          some result := hres
    rw [decodeLoop_step_pending_some hne hr hunm hres']
    exact ih (tsc_good hres' hb (unm2_not_mem hu hseg)) (by simp) hrest
  case case6 cp unm e hne seg rest hr hunm unm2 hres ih =>
    have hseg : '/' ∉ (splitAtDash e).1 := fun hc => he (splitAtDash_mem_fst hc)
    have hrest : '/' ∉ rest := fun hc => he (splitAtDash_mem_snd hr hc)
    have hres' : try_segment_combinations fs cp
        (if (splitAtDash e).1 ≠ [] then unm ++ [(splitAtDash e).1] else unm) =
          none := hres
    rw [decodeLoop_step_pending_none hne hr hunm hres']
    exact ih hb (unm2_not_mem hu hseg) hrest
  case case7 cp unm e hne seg rest hr hunm hfs ih =>
    have hseg : '/' ∉ (splitAtDash e).1 := fun hc => he (splitAtDash_mem_fst hc)
    have hrest : '/' ∉ rest := fun hc => he (splitAtDash_mem_snd hr hc)
    rw [decodeLoop_step_greedy hne hr (by simpa using hunm) hfs]
    exact ih (goodBase_append hb hseg hfs.1) (by simp) hrest
  case case8 cp unm e hne seg rest hr hunm hfs ih =>
    have hseg : '/' ∉ (splitAtDash e).1 := fun hc => he (splitAtDash_mem_fst hc)
    have hrest : '/' ∉ rest := fun hc => he (splitAtDash_mem_snd hr hc)
    rw [decodeLoop_step_collect hne hr (by simpa using hunm) hfs]
    refine ih hb (fun s hs => ?_) hrest
    rcases List.mem_append.mp hs with hs | hs
    · exact hu s hs
    · rw [List.mem_singleton.mp hs]
      exact hseg

theorem head_append_slash {cp t : Path} (hcp : cp = [] ∨ cp.head? = some '/') :
    (cp ++ '/' :: t).head? = some '/' := by
  rcases hcp with rfl | h
  · simp
  · cases cp with
    | nil => simp
    | cons a l => simpa using h

theorem decodeLoop_abs {fs : FS} (habs : ∀ p, fs p = true → p.head? = some '/')
    {cp0 : Path} {unm0 : List Path} {e0 : List Char}
    (hcp : cp0 = [] ∨ cp0.head? = some '/') :
    decodeLoop fs cp0 unm0 e0 = [] ∨ (decodeLoop fs cp0 unm0 e0).head? = some '/' := by
  induction cp0, unm0, e0 using decodeLoop.induct fs
  case case1 cp unm =>
    rw [decodeLoop_nil]
    exact hcp
  case case2 cp unm e hne seg hr hcond unm2 result hres =>
    have hres' : try_segment_combinations fs cp
        (if (splitAtDash e).1 ≠ [] then unm ++ [(splitAtDash e).1] else unm) =
          some result := hres
    rw [decodeLoop_last_pending_some hne hr hcond hres']
    exact Or.inr (habs result (tsc_exists hres'))
  case case3 cp unm e hne seg hr hcond unm2 hres =>
    have hres' : try_segment_combinations fs cp
        (if (splitAtDash e).1 ≠ [] then unm ++ [(splitAtDash e).1] else unm) =
          none := hres
    rw [decodeLoop_last_pending_none hne hr hcond hres']
    exact Or.inr (head_append_slash hcp)
  case case4 cp unm e hne seg hr hcond =>
    rw [decodeLoop_last_plain hne hr hcond]
    exact Or.inr (head_append_slash hcp)
  case case5 cp unm e hne seg rest hr hunm unm2 result hres ih =>
    have hres' : try_segment_combinations fs cp
        (if (splitAtDash e).1 ≠ [] then unm ++ [(splitAtDash e).1] else unm) =
          some result := hres
    rw [decodeLoop_step_pending_some hne hr hunm hres']
    exact ih (Or.inr (habs result (tsc_exists hres')))
  case case6 cp unm e hne seg rest hr hunm unm2 hres ih =>
    have hres' : try_segment_combinations fs cp
        (if (splitAtDash e).1 ≠ [] then unm ++ [(splitAtDash e).1] else unm) =
          none := hres
    rw [decodeLoop_step_pending_none hne hr hunm hres']
    exact ih hcp
  case case7 cp unm e hne seg rest hr hunm hfs ih =>
    rw [decodeLoop_step_greedy hne hr (by simpa using hunm) hfs]
    exact ih (Or.inr (head_append_slash hcp))
  case case8 cp unm e hne seg rest hr hunm hfs ih =>
    rw [decodeLoop_step_collect hne hr (by simpa using hunm) hfs]
    exact ih hcp


theorem absPath_cons {c : Path} {cs : List Path} :
    absPath (c :: cs) = '/' :: (c ++ absPath cs) := by
  simp [absPath]

theorem absPath_single {c : Path} : absPath [c] = '/' :: c := by
  simp [absPath]

/-- A component is `clean` when it is nonempty and free of all four
special characters. -/
def CleanComp (c : Path) : Prop :=
  c ≠ [] ∧ ∀ ch ∈ c, ch ≠ '/' ∧ ch ≠ '.' ∧ ch ≠ '_' ∧ ch ≠ '-'

theorem encode_path_clean {c : Path}
    (h : ∀ ch ∈ c, ch ≠ '/' ∧ ch ≠ '.' ∧ ch ≠ '_' ∧ ch ≠ '-') :
    encode_path c = c := by
  induction c with
  | nil => simp [encode_path]
  | cons a t ih =>
    have ha := h a (by simp)
    have : encode_path t = t := ih fun ch hch => h ch (by simp [hch])
    simp only [encode_path, List.map_cons] at this ⊢
    rw [if_neg (by simp [ha.1, ha.2.1, ha.2.2.1]), this]

theorem encode_absPath {cs : List Path} (hne : cs ≠ [])
    (h : ∀ c ∈ cs, CleanComp c) :
    encode_path (absPath cs) = '-' :: joinDash cs := by
  induction cs with
  | nil => simp at hne
  | cons c t ih =>
    rw [absPath_cons]
    have hc := h c (by simp)
    cases t with
    | nil =>
      simp only [absPath, List.map_nil, List.flatten_nil, List.append_nil]
      rw [joinDash]
      show encode_path ('/' :: c) = '-' :: c
      simp only [encode_path, List.map_cons]
      rw [if_pos (by simp)]
      have := encode_path_clean hc.2
      simpa [encode_path] using this
    | cons d ds =>
      have ht : encode_path (absPath (d :: ds)) = '-' :: joinDash (d :: ds) :=
        ih (by simp) fun x hx => h x (by simp [hx])
      rw [joinDash]
      show encode_path ('/' :: (c ++ absPath (d :: ds))) = '-' :: (c ++ '-' :: joinDash (d :: ds))
      simp only [encode_path, List.map_cons, List.map_append]
      rw [if_pos (by simp)]
      have h1 : List.map (fun ch => if ch = '/' ∨ ch = '.' ∨ ch = '_' then '-' else ch) c = c := by
        simpa [encode_path] using encode_path_clean hc.2
      rw [h1]
      have h2 := ht
      simp only [encode_path] at h2
      rw [h2]

theorem joinDash_cons_ne {d : Path} {t : List Path} (ht : t ≠ []) :
    joinDash (d :: t) = d ++ '-' :: joinDash t := by
  cases t with
  | nil => simp at ht
  | cons x xs => rw [joinDash]

theorem decodeLoop_roundtrip {fs : FS} {ds : List Path} {cp : Path}
    (hne : ds ≠ []) (hclean : ∀ c ∈ ds, CleanComp c)
    (hfs : ∀ i, 1 ≤ i → i < ds.length → fs (cp ++ absPath (ds.take i)) = true) :
    decodeLoop fs cp [] (joinDash ds) = cp ++ absPath ds := by
  induction ds generalizing cp with
  | nil => simp at hne
  | cons d t ih =>
    have hd := hclean d (by simp)
    have hdnomem : '-' ∉ d := fun hc => (hd.2 '-' hc).2.2.2 rfl
    cases t with
    | nil =>
      rw [joinDash]
      have hsplit : splitAtDash d = (d, none) := splitAtDash_of_not_mem hdnomem
      rw [decodeLoop_last_plain hd.1 (by rw [hsplit]) (by simp [hsplit, hd.1])]
      simp [hsplit, absPath_single]
    | cons x xs =>
      rw [joinDash_cons_ne (by simp)]
      have hsplit : splitAtDash (d ++ '-' :: joinDash (x :: xs)) =
          (d, some (joinDash (x :: xs))) := splitAtDash_append _ hdnomem
      rw [decodeLoop_step_greedy (by simp [hd.1]) (by rw [hsplit]) rfl ?hfs1]
      case hfs1 =>
        rw [hsplit]
        refine ⟨hd.1, ?_⟩
        have := hfs 1 (by omega) (by simp)
        simpa [absPath_single] using this
      simp only [hsplit]
      have ihr := @ih (cp ++ '/' :: d) (by simp)
        (fun c hc => hclean c (by simp [hc])) ?hfs2
      case hfs2 =>
        intro i h1 h2
        have := hfs (i + 1) (by omega) (by simpa using h2)
        simpa [List.take_succ_cons, absPath_cons] using this
      rw [ihr]
      simp [absPath_cons]


theorem decodeLoopState_nil {fs : FS} {cp : Path} {unm : List Path} :
    decodeLoopState fs cp unm [] = (cp, unm) := by
  rw [decodeLoopState]
  simp

theorem decodeLoopState_last {fs : FS} {cp : Path} {unm : List Path}
    {e : List Char} (hr : (splitAtDash e).2 = none) :
    decodeLoopState fs cp unm e = (cp, unm) := by
  by_cases hne : e = []
  · subst hne
    exact decodeLoopState_nil
  conv_lhs => rw [decodeLoopState]
  simp only [if_neg hne]
  split
  · rfl
  · next r' heq => rw [heq] at hr; exact absurd hr (by simp)

theorem decodeLoopState_step_greedy {fs : FS} {cp : Path} {unm : List Path}
    {e rest : List Char} (hne : e ≠ []) (hr : (splitAtDash e).2 = some rest)
    (hu : unm = [])
    (hfs : (splitAtDash e).1 ≠ [] ∧ fs (cp ++ '/' :: (splitAtDash e).1) = true) :
    decodeLoopState fs cp unm e =
      decodeLoopState fs (cp ++ '/' :: (splitAtDash e).1) [] rest := by
  conv_lhs => rw [decodeLoopState]
  simp only [if_neg hne, hr, hu]
  split
  · next heq => rw [heq] at hr; exact absurd hr (by simp)
  · next r' heq =>
    rw [heq, Option.some_inj] at hr
    subst hr
    simp [hfs.1, hfs.2]

theorem decodeLoopState_step_collect {fs : FS} {cp : Path} {unm : List Path}
    {e rest : List Char} (hne : e ≠ []) (hr : (splitAtDash e).2 = some rest)
    (hu : unm = [])
    (hfs : ¬((splitAtDash e).1 ≠ [] ∧ fs (cp ++ '/' :: (splitAtDash e).1) = true)) :
    decodeLoopState fs cp unm e =
      decodeLoopState fs cp (unm ++ [(splitAtDash e).1]) rest := by
  conv_lhs => rw [decodeLoopState]
  simp only [if_neg hne, hr, hu]
  split
  · next heq => rw [heq] at hr; exact absurd hr (by simp)
  · next r' heq =>
    rw [heq, Option.some_inj] at hr
    subst hr
    simp [hfs]

theorem decodeLoopState_step_pending_some {fs : FS} {cp result : Path}
    {unm : List Path} {e rest : List Char} (hne : e ≠ [])
    (hr : (splitAtDash e).2 = some rest) (hu : unm ≠ [])
    (hres : try_segment_combinations fs cp
      (if (splitAtDash e).1 ≠ [] then unm ++ [(splitAtDash e).1] else unm) =
        some result) :
    decodeLoopState fs cp unm e = decodeLoopState fs result [] rest := by
  conv_lhs => rw [decodeLoopState]
  simp only [if_neg hne, hr]
  split
  · next heq => rw [heq] at hr; exact absurd hr (by simp)
  · next r' heq =>
    rw [heq, Option.some_inj] at hr
    subst hr
    simp only [if_pos hu, hres]

theorem decodeLoopState_step_pending_none {fs : FS} {cp : Path}
    {unm : List Path} {e rest : List Char} (hne : e ≠ [])
    (hr : (splitAtDash e).2 = some rest) (hu : unm ≠ [])
    (hres : try_segment_combinations fs cp
      (if (splitAtDash e).1 ≠ [] then unm ++ [(splitAtDash e).1] else unm) =
        none) :
    decodeLoopState fs cp unm e = decodeLoopState fs cp
      (if (splitAtDash e).1 ≠ [] then unm ++ [(splitAtDash e).1] else unm)
      rest := by
  conv_lhs => rw [decodeLoopState]
  simp only [if_neg hne, hr]
  split
  · next heq => rw [heq] at hr; exact absurd hr (by simp)
  · next r' heq =>
    rw [heq, Option.some_inj] at hr
    subst hr
    simp only [if_pos hu, hres]


theorem splitAtDash_snd_nil {e : List Char}
    (h : (splitAtDash e).2 = some []) : e.getLast? = some '-' := by
  induction e with
  | nil => simp [splitAtDash] at h
  | cons c cs ih =>
    by_cases hc : c = '-'
    · simp [splitAtDash, hc] at h
      subst hc
      subst h
      simp
    · simp [splitAtDash, hc] at h
      have hcs : cs ≠ [] := by
        intro hnil
        rw [hnil] at h
        simp [splitAtDash] at h
      cases cs with
      | nil => simp at hcs
      | cons b bs => rw [List.getLast?_cons_cons]; exact ih h

theorem lastSeg_none {e : List Char} (hr : (splitAtDash e).2 = none) :
    lastSeg e = (splitAtDash e).1 := by
  rw [lastSeg]
  split
  · rfl
  · next r' heq => rw [heq] at hr; exact absurd hr (by simp)

theorem lastSeg_step {e rest : List Char} (hr : (splitAtDash e).2 = some rest) :
    lastSeg e = lastSeg rest := by
  rw [lastSeg]
  split
  · next heq => rw [heq] at hr; exact absurd hr (by simp)
  · next r' heq =>
    rw [heq, Option.some_inj] at hr
    rw [hr]

theorem lastSeg_ne_nil {e : List Char} (hne : e ≠ [])
    (hnd : e.getLast? ≠ some '-') : lastSeg e ≠ [] := by
  induction e using lastSeg.induct
  case case1 e hr =>
    rw [lastSeg_none hr, splitAtDash_snd_none hr]
    exact hne
  case case2 e rest heq ih =>
    rw [lastSeg_step heq]
    have hrne : rest ≠ [] := by
      intro hnil
      rw [hnil] at heq
      exact hnd (splitAtDash_snd_nil heq)
    have hlast : rest.getLast? = e.getLast? := splitAtDash_getLast heq hrne
    exact ih hrne fun hc => hnd (hlast.symm.trans hc)

theorem decodeLoop_trailing {fs : FS} {cp0 : Path} {unm0 : List Path}
    {e0 : List Char} (hlast : e0.getLast? = some '-') :
    decodeLoop fs cp0 unm0 e0 = (decodeLoopState fs cp0 unm0 e0).1 := by
  induction cp0, unm0, e0 using decodeLoop.induct fs
  case case1 cp unm =>
    rw [decodeLoop_nil, decodeLoopState_nil]
  case case2 cp unm e hne seg hr hcond unm2 result hres =>
    obtain ⟨rest, hrest⟩ := splitAtDash_of_getLast hlast
    rw [hr] at hrest
    exact absurd hrest (by simp)
  case case3 cp unm e hne seg hr hcond unm2 hres =>
    obtain ⟨rest, hrest⟩ := splitAtDash_of_getLast hlast
    rw [hr] at hrest
    exact absurd hrest (by simp)
  case case4 cp unm e hne seg hr hcond =>
    obtain ⟨rest, hrest⟩ := splitAtDash_of_getLast hlast
    rw [hr] at hrest
    exact absurd hrest (by simp)
  case case5 cp unm e hne seg rest hr hunm unm2 result hres ih =>
    have hres' : try_segment_combinations fs cp
        (if (splitAtDash e).1 ≠ [] then unm ++ [(splitAtDash e).1] else unm) =
          some result := hres
    rw [decodeLoop_step_pending_some hne hr hunm hres',
        decodeLoopState_step_pending_some hne hr hunm hres']
    by_cases hrne : rest = []
    · subst hrne
      rw [decodeLoop_nil, decodeLoopState_nil]
    · exact ih ((splitAtDash_getLast hr hrne).trans hlast)
  case case6 cp unm e hne seg rest hr hunm unm2 hres ih =>
    have hres' : try_segment_combinations fs cp
        (if (splitAtDash e).1 ≠ [] then unm ++ [(splitAtDash e).1] else unm) =
          none := hres
    rw [decodeLoop_step_pending_none hne hr hunm hres',
        decodeLoopState_step_pending_none hne hr hunm hres']
    by_cases hrne : rest = []
    · subst hrne
      rw [decodeLoop_nil, decodeLoopState_nil]
    · exact ih ((splitAtDash_getLast hr hrne).trans hlast)
  case case7 cp unm e hne seg rest hr hunm hfs ih =>
    rw [decodeLoop_step_greedy hne hr (by simpa using hunm) hfs,
        decodeLoopState_step_greedy hne hr (by simpa using hunm) hfs]
    by_cases hrne : rest = []
    · subst hrne
      rw [decodeLoop_nil, decodeLoopState_nil]
    · exact ih ((splitAtDash_getLast hr hrne).trans hlast)
  case case8 cp unm e hne seg rest hr hunm hfs ih =>
    rw [decodeLoop_step_collect hne hr (by simpa using hunm) hfs,
        decodeLoopState_step_collect hne hr (by simpa using hunm) hfs]
    by_cases hrne : rest = []
    · subst hrne
      rw [decodeLoop_nil, decodeLoopState_nil]
    · exact ih ((splitAtDash_getLast hr hrne).trans hlast)

theorem decodeLoop_final_resolve {fs : FS} {cp0 : Path} {unm0 : List Path}
    {e0 : List Char} (hne0 : e0 ≠ []) (hnd : e0.getLast? ≠ some '-')
    (hpend : (decodeLoopState fs cp0 unm0 e0).2 ≠ []) :
    decodeLoop fs cp0 unm0 e0 =
      match try_segment_combinations fs (decodeLoopState fs cp0 unm0 e0).1
          ((decodeLoopState fs cp0 unm0 e0).2 ++ [lastSeg e0]) with
      | some r => r
      | none => (decodeLoopState fs cp0 unm0 e0).1 ++
          '/' :: joinDash ((decodeLoopState fs cp0 unm0 e0).2 ++ [lastSeg e0]) := by
  induction cp0, unm0, e0 using decodeLoop.induct fs
  case case1 cp unm => exact absurd rfl hne0
  case case2 cp unm e hne seg hr hcond unm2 result hres =>
    rw [decodeLoopState_last hr] at hpend ⊢
    have hsegne : (splitAtDash e).1 ≠ [] := by
      rw [splitAtDash_snd_none hr]
      exact hne
    have hres' : try_segment_combinations fs cp
        (if (splitAtDash e).1 ≠ [] then unm ++ [(splitAtDash e).1] else unm) =
          some result := hres
    rw [decodeLoop_last_pending_some hne hr hcond hres']
    rw [if_pos hsegne] at hres'
    simp only [lastSeg_none hr, hres']
  case case3 cp unm e hne seg hr hcond unm2 hres =>
    rw [decodeLoopState_last hr] at hpend ⊢
    have hsegne : (splitAtDash e).1 ≠ [] := by
      rw [splitAtDash_snd_none hr]
      exact hne
    have hres' : try_segment_combinations fs cp
        (if (splitAtDash e).1 ≠ [] then unm ++ [(splitAtDash e).1] else unm) =
          none := hres
    rw [decodeLoop_last_pending_none hne hr hcond hres']
    rw [if_pos hsegne] at hres'
    simp only [lastSeg_none hr, hres', if_pos hsegne]
  case case4 cp unm e hne seg hr hcond =>
    rw [decodeLoopState_last hr] at hpend
    rw [not_or] at hcond
    exact absurd (by simpa using hcond.1) hpend
  case case5 cp unm e hne seg rest hr hunm unm2 result hres ih =>
    have hrne : rest ≠ [] := fun hnil => hnd (splitAtDash_snd_nil (hnil ▸ hr))
    have hnd' : rest.getLast? ≠ some '-' :=
      fun hc => hnd ((splitAtDash_getLast hr hrne).symm.trans hc)
    have hres' : try_segment_combinations fs cp
        (if (splitAtDash e).1 ≠ [] then unm ++ [(splitAtDash e).1] else unm) =
          some result := hres
    rw [decodeLoopState_step_pending_some hne hr hunm hres'] at hpend ⊢
    rw [decodeLoop_step_pending_some hne hr hunm hres', lastSeg_step hr]
    exact ih hrne hnd' hpend
  case case6 cp unm e hne seg rest hr hunm unm2 hres ih =>
    have hrne : rest ≠ [] := fun hnil => hnd (splitAtDash_snd_nil (hnil ▸ hr))
    have hnd' : rest.getLast? ≠ some '-' :=
      fun hc => hnd ((splitAtDash_getLast hr hrne).symm.trans hc)
    have hres' : try_segment_combinations fs cp
        (if (splitAtDash e).1 ≠ [] then unm ++ [(splitAtDash e).1] else unm) =
          none := hres
    rw [decodeLoopState_step_pending_none hne hr hunm hres'] at hpend ⊢
    rw [decodeLoop_step_pending_none hne hr hunm hres', lastSeg_step hr]
    exact ih hrne hnd' hpend
  case case7 cp unm e hne seg rest hr hunm hfs ih =>
    have hrne : rest ≠ [] := fun hnil => hnd (splitAtDash_snd_nil (hnil ▸ hr))
    have hnd' : rest.getLast? ≠ some '-' :=
      fun hc => hnd ((splitAtDash_getLast hr hrne).symm.trans hc)
    rw [decodeLoopState_step_greedy hne hr (by simpa using hunm) hfs] at hpend ⊢
    rw [decodeLoop_step_greedy hne hr (by simpa using hunm) hfs, lastSeg_step hr]
    exact ih hrne hnd' hpend
  case case8 cp unm e hne seg rest hr hunm hfs ih =>
    have hrne : rest ≠ [] := fun hnil => hnd (splitAtDash_snd_nil (hnil ▸ hr))
    have hnd' : rest.getLast? ≠ some '-' :=
      fun hc => hnd ((splitAtDash_getLast hr hrne).symm.trans hc)
    rw [decodeLoopState_step_collect hne hr (by simpa using hunm) hfs] at hpend ⊢
    rw [decodeLoop_step_collect hne hr (by simpa using hunm) hfs, lastSeg_step hr]
    exact ih hrne hnd' hpend


theorem scan_step_eq {fs : FS} {cp : Path} {unm : List Path} {seg : Path}
    {rest : List Char} (hseg : '-' ∉ seg) (hu : unm ≠ []) :
    decodeLoop fs cp unm (seg ++ '-' :: rest) =
      (match try_segment_combinations fs cp
          (if seg ≠ [] then unm ++ [seg] else unm) with
       | some result => decodeLoop fs result [] rest
       | none => decodeLoop fs cp (if seg ≠ [] then unm ++ [seg] else unm) rest) := by
  have hsplit : splitAtDash (seg ++ '-' :: rest) = (seg, some rest) :=
    splitAtDash_append _ hseg
  rw [decodeLoop_step_pending (by simp) (by rw [hsplit]) hu]
  simp only [hsplit]

theorem tryCombos_eq_findSome {fs : FS} {base first : Path} {rest : List Path}
    {prods : List (List Char)} :
    tryCombos fs base first rest prods =
      prods.findSome? fun seps =>
        if fs (pathJoin base (combine first rest seps)) then
          some (pathJoin base (combine first rest seps))
        else none := by
  induction prods with
  | nil => simp [tryCombos]
  | cons seps more ih =>
    rw [tryCombos, List.findSome?_cons]
    by_cases hfs : fs (pathJoin base (combine first rest seps)) = true
    · simp [hfs]
    · simp only [Bool.not_eq_true] at hfs
      simp [hfs, ih]

theorem sepProduct_length (n : Nat) : (sepProduct n).length = 3 ^ n := by
  induction n with
  | zero => simp [sepProduct]
  | succ m ih =>
    simp [sepProduct, sepChoices, ih, List.length_flatMap]
    ring

theorem tsc_general_eq {fs : FS} {base s0 : Path} {rest : List Path}
    (hs0 : s0 ≠ []) (hrest : rest ≠ []) :
    try_segment_combinations fs base (s0 :: rest) =
      (sepProduct rest.length).findSome? fun seps =>
        if fs (pathJoin base (combine s0 rest seps)) then
          some (pathJoin base (combine s0 rest seps))
        else none := by
  cases rest with
  | nil => simp at hrest
  | cons r0 rtail =>
    rw [try_segment_combinations]
    rw [if_neg hs0]
    exact tryCombos_eq_findSome

theorem decode_uncached {fs : FS} {cache : Cache} {e : List Char}
    (hl : cacheLookup cache e = none) (hh : e.head? = some '-') :
    decode_project_path fs cache e =
      (decodeLoop fs [] [] e.tail, (e, decodeLoop fs [] [] e.tail) :: cache) := by
  rw [decode_project_path, hl]
  simp [hh, decode_path_progressive]

theorem decode_cache_round {fs fs' : FS} {cache : Cache} {e : List Char} :
    decode_project_path fs' (decode_project_path fs cache e).2 e =
      ((decode_project_path fs cache e).1, (decode_project_path fs cache e).2) := by
  cases hl : cacheLookup cache e with
  | some v =>
    have h1 : decode_project_path fs cache e = (v, cache) := by
      rw [decode_project_path, hl]
    rw [h1, decode_project_path, hl]
  | none =>
    by_cases hh : e.head? = some '-'
    · have h1 : decode_project_path fs cache e =
          (decode_path_progressive fs e.tail,
           (e, decode_path_progressive fs e.tail) :: cache) := by
        rw [decode_project_path, hl]
        simp [hh]
      rw [h1, decode_project_path]
      simp [cacheLookup]
    · have h1 : decode_project_path fs cache e = (e, (e, e) :: cache) := by
        rw [decode_project_path, hl]
        simp [hh]
      rw [h1, decode_project_path]
      simp [cacheLookup]


/-- Oracle with no existing paths at all. -/
def fsNone : FS := fun _ => false

/-- Finite oracle: exactly the listed paths exist. -/
def fsOf (l : List String) : FS := fun p => l.any fun s => p == s.toList

/-- Both `/a` and `/a.b` exist. -/
def fsShadow : FS := fsOf ["/a", "/a.b"]

/-- `/home/user` with all three hidden-entry variants of `config`. -/
def fsHidden : FS :=
  fsOf ["/home", "/home/user", "/home/user/.config", "/home/user/_config",
        "/home/user/-config"]

/-- Two valid ambiguous decodings `/h/a.b` and `/h/a_b` both exist. -/
def fsAmbig : FS := fsOf ["/h", "/h/a.b", "/h/a_b"]

/-- Only the relative entry `x-.y` exists. -/
def fsMarker : FS := fsOf ["x-.y"]

theorem eval_shadow :
    (decode_project_path fsShadow [] (String.toList "-a-b")).1 =
      String.toList "/a/b" := by
  rw [decode_uncached (by decide) (by decide)]
  simp only
  have hr1 : (splitAtDash (String.toList "-a-b").tail).2 =
      some (String.toList "b") := by decide
  rw [decodeLoop_step_greedy (by decide) hr1 rfl (by decide)]
  have e1 : ([] : Path) ++ '/' :: (splitAtDash (String.toList "-a-b").tail).1 =
      String.toList "/a" := by decide
  rw [e1]
  have hr2 : (splitAtDash (String.toList "b")).2 = none := by decide
  rw [decodeLoop_last_plain (by decide) hr2 (by decide)]
  decide

theorem eval_fake :
    (decode_project_path fsNone [] (String.toList "-totally-fake-path")).1 =
      String.toList "/totally-fake-path" := by
  rw [decode_uncached (by decide) (by decide)]
  simp only
  have hr1 : (splitAtDash (String.toList "-totally-fake-path").tail).2 =
      some (String.toList "fake-path") := by decide
  rw [decodeLoop_step_collect (by decide) hr1 rfl (by decide)]
  have e1 : ([] : List Path) ++
      [(splitAtDash (String.toList "-totally-fake-path").tail).1] =
      [String.toList "totally"] := by decide
  rw [e1]
  have hr2 : (splitAtDash (String.toList "fake-path")).2 =
      some (String.toList "path") := by decide
  rw [decodeLoop_step_pending_none (by decide) hr2 (by decide) (by decide)]
  have e2 : (if (splitAtDash (String.toList "fake-path")).1 ≠ [] then
      [String.toList "totally"] ++ [(splitAtDash (String.toList "fake-path")).1]
      else [String.toList "totally"]) =
      [String.toList "totally", String.toList "fake"] := by decide
  rw [e2]
  have hr3 : (splitAtDash (String.toList "path")).2 = none := by decide
  rw [decodeLoop_last_pending_none (by decide) hr3 (by decide) (by decide)]
  decide

theorem eval_hidden :
    (decode_project_path fsHidden [] (String.toList "-home-user--config")).1 =
      String.toList "/home/user/.config" := by
  rw [decode_uncached (by decide) (by decide)]
  simp only
  have hr1 : (splitAtDash (String.toList "-home-user--config").tail).2 =
      some (String.toList "user--config") := by decide
  rw [decodeLoop_step_greedy (by decide) hr1 rfl (by decide)]
  have e1 : ([] : Path) ++
      '/' :: (splitAtDash (String.toList "-home-user--config").tail).1 =
      String.toList "/home" := by decide
  rw [e1]
  have hr2 : (splitAtDash (String.toList "user--config")).2 =
      some (String.toList "-config") := by decide
  rw [decodeLoop_step_greedy (by decide) hr2 rfl (by decide)]
  have e2 : String.toList "/home" ++
      '/' :: (splitAtDash (String.toList "user--config")).1 =
      String.toList "/home/user" := by decide
  rw [e2]
  have hr3 : (splitAtDash (String.toList "-config")).2 =
      some (String.toList "config") := by decide
  rw [decodeLoop_step_collect (by decide) hr3 rfl (by decide)]
  have e3 : ([] : List Path) ++ [(splitAtDash (String.toList "-config")).1] =
      [([] : Path)] := by decide
  rw [e3]
  have hr4 : (splitAtDash (String.toList "config")).2 = none := by decide
  rw [decodeLoop_last_pending_some (by decide) hr4 (by decide)
    (show try_segment_combinations fsHidden (String.toList "/home/user")
      (if (splitAtDash (String.toList "config")).1 ≠ [] then
        [([] : Path)] ++ [(splitAtDash (String.toList "config")).1]
       else [([] : Path)]) = some (String.toList "/home/user/.config")
     from by decide)]

theorem eval_ambig :
    (decode_project_path fsAmbig [] (String.toList "-h-a-b")).1 =
      String.toList "/h/a.b" := by
  rw [decode_uncached (by decide) (by decide)]
  simp only
  have hr1 : (splitAtDash (String.toList "-h-a-b").tail).2 =
      some (String.toList "a-b") := by decide
  rw [decodeLoop_step_greedy (by decide) hr1 rfl (by decide)]
  have e1 : ([] : Path) ++ '/' :: (splitAtDash (String.toList "-h-a-b").tail).1 =
      String.toList "/h" := by decide
  rw [e1]
  have hr2 : (splitAtDash (String.toList "a-b")).2 = some (String.toList "b") := by
    decide
  rw [decodeLoop_step_collect (by decide) hr2 rfl (by decide)]
  have e2 : ([] : List Path) ++ [(splitAtDash (String.toList "a-b")).1] =
      [String.toList "a"] := by decide
  rw [e2]
  have hr3 : (splitAtDash (String.toList "b")).2 = none := by decide
  rw [decodeLoop_last_pending_some (by decide) hr3 (by decide)
    (show try_segment_combinations fsAmbig (String.toList "/h")
      (if (splitAtDash (String.toList "b")).1 ≠ [] then
        [String.toList "a"] ++ [(splitAtDash (String.toList "b")).1]
       else [String.toList "a"]) = some (String.toList "/h/a.b")
     from by decide)]

theorem eval_marker_code :
    decodeLoop fsMarker [] [String.toList "x"] (String.toList "-y") =
      String.toList "/x-y" := by
  have hr1 : (splitAtDash (String.toList "-y")).2 = some (String.toList "y") := by
    decide
  rw [decodeLoop_step_pending_none (by decide) hr1 (by decide) (by decide)]
  have e1 : (if (splitAtDash (String.toList "-y")).1 ≠ [] then
      [String.toList "x"] ++ [(splitAtDash (String.toList "-y")).1]
      else [String.toList "x"]) = [String.toList "x"] := by decide
  rw [e1]
  have hr2 : (splitAtDash (String.toList "y")).2 = none := by decide
  rw [decodeLoop_last_pending_none (by decide) hr2 (by decide) (by decide)]
  decide

theorem eval_marker_claim :
    decodeLoop fsMarker [] [String.toList "x", []] (String.toList "y") =
      String.toList "x-.y" := by
  have hr1 : (splitAtDash (String.toList "y")).2 = none := by decide
  rw [decodeLoop_last_pending_some (by decide) hr1 (by decide)
    (show try_segment_combinations fsMarker []
      (if (splitAtDash (String.toList "y")).1 ≠ [] then
        [String.toList "x", []] ++ [(splitAtDash (String.toList "y")).1]
       else [String.toList "x", []]) = some (String.toList "x-.y")
     from by decide)]

theorem eval_trailing :
    (decode_project_path fsNone [] (String.toList "-a-b-")).1 = [] := by
  rw [decode_uncached (by decide) (by decide)]
  simp only
  have hr1 : (splitAtDash (String.toList "-a-b-").tail).2 =
      some (String.toList "b-") := by decide
  rw [decodeLoop_step_collect (by decide) hr1 rfl (by decide)]
  have e1 : ([] : List Path) ++ [(splitAtDash (String.toList "-a-b-").tail).1] =
      [String.toList "a"] := by decide
  rw [e1]
  have hr2 : (splitAtDash (String.toList "b-")).2 = some ([] : List Char) := by
    decide
  rw [decodeLoop_step_pending_none (by decide) hr2 (by decide) (by decide)]
  exact decodeLoop_nil

theorem eval_trailing_state :
    decodeLoopState fsNone [] [] (String.toList "a-b-") =
      ([], [String.toList "a", String.toList "b"]) := by
  have hr1 : (splitAtDash (String.toList "a-b-")).2 =
      some (String.toList "b-") := by decide
  rw [decodeLoopState_step_collect (by decide) hr1 rfl (by decide)]
  have e1 : ([] : List Path) ++ [(splitAtDash (String.toList "a-b-")).1] =
      [String.toList "a"] := by decide
  rw [e1]
  have hr2 : (splitAtDash (String.toList "b-")).2 = some ([] : List Char) := by
    decide
  rw [decodeLoopState_step_pending_none (by decide) hr2 (by decide) (by decide)]
  rw [decodeLoopState_nil]
  decide

theorem eval_adash :
    decodeLoop fsNone [] [] (String.toList "a-") = [] := by
  have hr1 : (splitAtDash (String.toList "a-")).2 = some ([] : List Char) := by
    decide
  rw [decodeLoop_step_collect (by decide) hr1 rfl (by decide)]
  exact decodeLoop_nil

theorem eval_adash_state :
    decodeLoopState fsNone [] [] (String.toList "a-") =
      ([], [String.toList "a"]) := by
  have hr1 : (splitAtDash (String.toList "a-")).2 = some ([] : List Char) := by
    decide
  rw [decodeLoopState_step_collect (by decide) hr1 rfl (by decide)]
  rw [decodeLoopState_nil]
  decide

theorem eval_ab_state :
    decodeLoopState fsNone [] [] (String.toList "a-b") =
      ([], [String.toList "a"]) := by
  have hr1 : (splitAtDash (String.toList "a-b")).2 = some (String.toList "b") := by
    decide
  rw [decodeLoopState_step_collect (by decide) hr1 rfl (by decide)]
  have hr2 : (splitAtDash (String.toList "b")).2 = none := by decide
  rw [decodeLoopState_last hr2]
  decide

theorem eval_dash :
    (decode_project_path fsNone [] (String.toList "-")).1 = [] := by
  rw [decode_uncached (by decide) (by decide)]
  simp only
  have e1 : (String.toList "-").tail = ([] : List Char) := by decide
  rw [e1]
  exact decodeLoop_nil

/-! ## The claims -/


instance (c : Path) : Decidable (CleanComp c) :=
  inferInstanceAs
    (Decidable (c ≠ [] ∧ ∀ ch ∈ c, ch ≠ '/' ∧ ch ≠ '.' ∧ ch ≠ '_' ∧ ch ≠ '-'))

theorem decode_slashfree_nds (fs : FS) (e : List Char) (h : '/' ∉ e) :
    NoDoubleSlash (decode_project_path fs [] e).1 := by
  by_cases hh : e.head? = some '-'
  · have hl : cacheLookup [] e = none := rfl
    rw [decode_uncached hl hh]
    exact decodeLoop_nds goodBase_nil (by simp) fun hc => h (List.tail_subset e hc)
  · have hl : cacheLookup [] e = none := rfl
    rw [decode_project_path, hl]
    rw [if_pos hh]
    exact nds_of_not_mem h

/-- C1 counterexample: the round-trip property fails as stated.  On a
filesystem where both `/a` and `/a.b` exist, the path `P = /a.b` exists and
its single ambiguous component `a.b` has no two adjacent ambiguous
characters, yet encoding `P` yields `-a-b` and decoding returns `/a/b`,
not `P`: the greedy scanner commits to the separator reading because `/a`
exists, and the final segment is then appended without any existence
check. -/
theorem roundtrip_counterexample :
    fsShadow (String.toList "/a.b") = true ∧
    encode_path (String.toList "/a.b") = String.toList "-a-b" ∧
    (decode_project_path fsShadow [] (String.toList "-a-b")).1 ≠
      String.toList "/a.b" := by
  refine ⟨by decide, by decide, ?_⟩
  rw [eval_shadow]
  decide

/-- C1 (amended): the round trip holds for absolute paths whose components
are nonempty and contain none of the characters `/`, `.`, `_`, `-`,
whenever the existence oracle affirms every nonempty prefix of the path:
encoding with the forward mapping and decoding with a fresh cache returns
exactly the original path. -/
theorem roundtrip_clean_components (fs : FS) (cs : List Path)
    (hne : cs ≠ []) (hclean : ∀ c ∈ cs, CleanComp c)
    (hfs : ∀ i, 1 ≤ i → i ≤ cs.length → fs (absPath (cs.take i)) = true) :
    (decode_project_path fs [] (encode_path (absPath cs))).1 = absPath cs := by
  rw [encode_absPath hne hclean]
  have hl : cacheLookup [] ('-' :: joinDash cs) = none := rfl
  rw [decode_uncached hl (by simp)]
  show decodeLoop fs [] [] (joinDash cs) = absPath cs
  refine Eq.trans (decodeLoop_roundtrip hne hclean fun i h1 h2 => ?_) (by simp)
  simpa using hfs i h1 (Nat.le_of_lt h2)

/-- C1 witness: a two-component clean path round-trips on a filesystem
holding exactly its prefixes. -/
theorem roundtrip_clean_witness :
    (decode_project_path (fsOf ["/a", "/a/b"]) []
      (encode_path (absPath [String.toList "a", String.toList "b"]))).1 =
      absPath [String.toList "a", String.toList "b"] :=
  roundtrip_clean_components (fsOf ["/a", "/a/b"])
    [String.toList "a", String.toList "b"] (by decide) (by decide)
    (by
      intro i h1 h2
      have hlen : [String.toList "a", String.toList "b"].length = 2 := rfl
      rw [hlen] at h2
      interval_cases i <;> decide)

/-- C2 counterexample: the no-double-separator property fails for arbitrary
input strings.  The input `x//y` has no leading delimiter, so
`decode_project_path` returns it unchanged, and it contains `//`. -/
theorem no_double_separator_counterexample :
    ¬ NoDoubleSlash (decode_project_path fsNone [] (String.toList "x//y")).1 := by
  decide

/-- C2 (amended): for every input string containing no separator character
`/` (true of every name the encoding convention can produce), the decoded
string contains no two consecutive separators, for every oracle and a
fresh cache. -/
theorem no_double_separator_slashfree (fs : FS) (e : List Char)
    (h : '/' ∉ e) : NoDoubleSlash (decode_project_path fs [] e).1 :=
  decode_slashfree_nds fs e h

/-- C2 witness. -/
theorem no_double_separator_witness :
    NoDoubleSlash (decode_project_path fsNone [] (String.toList "-a-b")).1 :=
  no_double_separator_slashfree fsNone (String.toList "-a-b") (by decide)

/-- C3 counterexample: when the encoded string ends with the delimiter the
scanner reaches the end of the input with a non-empty PendingRun, yet no
final Resolver call or delimiter-joined fallback happens: decoding `a-`
under the all-false oracle returns the bare ConfirmedPrefix `""` instead
of the promised resolver-or-fallback value `/a`. -/
theorem end_of_string_counterexample :
    (decodeLoopState fsNone [] [] (String.toList "a-")).2 ≠ [] ∧
    decodeLoop fsNone [] [] (String.toList "a-") = [] ∧
    (match try_segment_combinations fsNone
        (decodeLoopState fsNone [] [] (String.toList "a-")).1
        (decodeLoopState fsNone [] [] (String.toList "a-")).2 with
      | some r => r
      | none =>
          (decodeLoopState fsNone [] [] (String.toList "a-")).1 ++
            '/' :: joinDash
              (decodeLoopState fsNone [] [] (String.toList "a-")).2) =
      String.toList "/a" ∧
    ([] : Path) ≠ String.toList "/a" := by
  refine ⟨?_, eval_adash, ?_, by decide⟩
  · rw [eval_adash_state]
    decide
  · rw [eval_adash_state]
    decide

/-- C3 (amended): when the scan ends at a final dashless segment (the
input is nonempty and does not end with the delimiter) and the pending run
at that point is non-empty, the result is the single final Resolver call
over the confirmed prefix and the pending run extended with the final
segment; if it does not resolve, the result is the confirmed prefix joined
by the separator to the delimiter-rejoined run.  Inputs that end with the
delimiter instead discard the pending run (see the C10 theorem). -/
theorem end_of_string_final_resolve (fs : FS) (cp : Path) (unm : List Path)
    (e : List Char) (hne : e ≠ []) (hnd : e.getLast? ≠ some '-')
    (hpend : (decodeLoopState fs cp unm e).2 ≠ []) :
    decodeLoop fs cp unm e =
      match try_segment_combinations fs (decodeLoopState fs cp unm e).1
          ((decodeLoopState fs cp unm e).2 ++ [lastSeg e]) with
      | some r => r
      | none => (decodeLoopState fs cp unm e).1 ++
          '/' :: joinDash ((decodeLoopState fs cp unm e).2 ++ [lastSeg e]) :=
  decodeLoop_final_resolve hne hnd hpend

/-- C3 witness. -/
theorem end_of_string_witness :
    decodeLoop fsNone [] [] (String.toList "a-b") =
      match try_segment_combinations fsNone
          (decodeLoopState fsNone [] [] (String.toList "a-b")).1
          ((decodeLoopState fsNone [] [] (String.toList "a-b")).2 ++
            [lastSeg (String.toList "a-b")]) with
      | some r => r
      | none =>
          (decodeLoopState fsNone [] [] (String.toList "a-b")).1 ++
            '/' :: joinDash
              ((decodeLoopState fsNone [] [] (String.toList "a-b")).2 ++
                [lastSeg (String.toList "a-b")]) :=
  end_of_string_final_resolve fsNone [] [] (String.toList "a-b") (by decide)
    (by decide) (by rw [eval_ab_state]; decide)

/-- C4: with an oracle on which every existence probe fails, decoding any
name over the encoding alphabet (no separator character) is total and
returns a string with no doubled separator; in particular
`-totally-fake-path` decodes to the literal fallback
`/totally-fake-path`.  (The embedding is a total function, so "never
raises" holds by construction.) -/
theorem graceful_degradation_no_backing :
    (∀ e : List Char, '/' ∉ e →
        NoDoubleSlash (decode_project_path fsNone [] e).1) ∧
    (decode_project_path fsNone [] (String.toList "-totally-fake-path")).1 =
      String.toList "/totally-fake-path" :=
  ⟨fun e he => decode_slashfree_nds fsNone e he, eval_fake⟩

/-- C4 witness. -/
theorem graceful_degradation_witness :
    NoDoubleSlash (decode_project_path fsNone [] (String.toList "-x-y")).1 :=
  graceful_degradation_no_backing.1 (String.toList "-x-y") (by decide)

/-- C5: for a pending run beginning with an empty segment (the `--`
marker), the Resolver tries a dot prefix on the following content first,
then underscore, then the literal delimiter: a dot-resolution wins
outright, underscore is consulted only if dot fails, and the literal
delimiter only if both fail; hence `-home-user--config` decodes to
`/home/user/.config` on a filesystem where that directory exists (even
when `_config` and `-config` exist as well, as in `fsHidden`). -/
theorem hidden_entry_priority :
    (∀ (fs : FS) (base r0 p : Path) (rtail : List Path),
        try_segment_combinations fs base (('.' :: r0) :: rtail) = some p →
        try_segment_combinations fs base ([] :: r0 :: rtail) = some p) ∧
    (∀ (fs : FS) (base r0 p : Path) (rtail : List Path),
        try_segment_combinations fs base (('.' :: r0) :: rtail) = none →
        try_segment_combinations fs base (('_' :: r0) :: rtail) = some p →
        try_segment_combinations fs base ([] :: r0 :: rtail) = some p) ∧
    (∀ (fs : FS) (base r0 : Path) (rtail : List Path),
        try_segment_combinations fs base (('.' :: r0) :: rtail) = none →
        try_segment_combinations fs base (('_' :: r0) :: rtail) = none →
        try_segment_combinations fs base ([] :: r0 :: rtail) =
          try_segment_combinations fs base (('-' :: r0) :: rtail)) ∧
    (decode_project_path fsHidden [] (String.toList "-home-user--config")).1 =
      String.toList "/home/user/.config" := by
  refine ⟨?_, ?_, ?_, eval_hidden⟩
  · intro fs base r0 p rtail h
    rw [tsc_special_eq, h]
  · intro fs base r0 p rtail h1 h2
    rw [tsc_special_eq, h1, h2]
  · intro fs base r0 rtail h1 h2
    rw [tsc_special_eq, h1, h2]

/-- C5 witness. -/
theorem hidden_entry_priority_witness :
    try_segment_combinations fsHidden (String.toList "/home/user")
      ([] :: String.toList "config" :: []) =
      some (String.toList "/home/user/.config") :=
  hidden_entry_priority.1 fsHidden (String.toList "/home/user")
    (String.toList "config") (String.toList "/home/user/.config") []
    (by decide)

/-- C6: the Resolver's general case enumerates all `3 ^ (N-1)` assignments
of delimiter, dot and underscore to the `N-1` join positions in the fixed
`itertools.product` order (leftmost position slowest; `-` before `.`
before `_` at each position, see `sepProduct`), returning the first
existing candidate; being a pure function of the oracle, the decoder
therefore returns the same answer whenever several decodings exist, the
first in this order — concretely, with both `/h/a.b` and `/h/a_b`
existing, `-h-a-b` decodes to `/h/a.b`. -/
theorem resolver_enumeration_order :
    (∀ n : Nat, (sepProduct n).length = 3 ^ n) ∧
    (∀ (fs : FS) (base s0 : Path) (rest : List Path),
        s0 ≠ [] → rest ≠ [] →
        try_segment_combinations fs base (s0 :: rest) =
          (sepProduct rest.length).findSome? fun seps =>
            if fs (pathJoin base (combine s0 rest seps)) then
              some (pathJoin base (combine s0 rest seps))
            else none) ∧
    (decode_project_path fsAmbig [] (String.toList "-h-a-b")).1 =
        String.toList "/h/a.b" ∧
    fsAmbig (String.toList "/h/a.b") = true ∧
    fsAmbig (String.toList "/h/a_b") = true := by
  refine ⟨sepProduct_length, ?_, eval_ambig, by decide, by decide⟩
  intro fs base s0 rest h1 h2
  exact tsc_general_eq h1 h2

/-- C6 witness. -/
theorem resolver_enumeration_witness :
    try_segment_combinations fsAmbig (String.toList "/h")
      (String.toList "a" :: [String.toList "b"]) =
      ((sepProduct [String.toList "b"].length).findSome? fun seps =>
        if fsAmbig (pathJoin (String.toList "/h")
            (combine (String.toList "a") [String.toList "b"] seps)) then
          some (pathJoin (String.toList "/h")
            (combine (String.toList "a") [String.toList "b"] seps))
        else none) :=
  resolver_enumeration_order.2.1 fsAmbig (String.toList "/h")
    (String.toList "a") [String.toList "b"] (by decide) (by decide)

/-- C7: decoding the same encoded name twice in a row returns the same
string and leaves the cache unchanged, and the second call is independent
of the existence oracle (`fs2` is universally quantified), i.e. it
performs no observable filesystem probe: the cache hit short-circuits the
scan. -/
theorem decode_cache_idempotent (fs fs2 : FS) (cache : Cache)
    (e : List Char) :
    decode_project_path fs2 (decode_project_path fs cache e).2 e =
      ((decode_project_path fs cache e).1,
       (decode_project_path fs cache e).2) :=
  decode_cache_round

/-- C8 counterexample: with PendingRun non-empty, an empty delimiter-bounded
segment is NOT appended to PendingRun (source line 536 guards the append
with `if segment:`).  Under `fsMarker` (only `x-.y` exists) the scanner at
state `(cp = "", pending = ["x"])` reading `-y` produces `/x-y`, while the
claimed always-append behaviour would produce `x-.y`. -/
theorem scan_step_append_counterexample :
    decodeLoop fsMarker [] [String.toList "x"] (String.toList "-y") =
      String.toList "/x-y" ∧
    (match try_segment_combinations fsMarker []
        ([String.toList "x"] ++ [[]]) with
      | some result => decodeLoop fsMarker result [] (String.toList "y")
      | none => decodeLoop fsMarker []
          ([String.toList "x"] ++ [[]]) (String.toList "y")) =
      String.toList "x-.y" ∧
    String.toList "/x-y" ≠ String.toList "x-.y" := by
  refine ⟨eval_marker_code, ?_, by decide⟩
  have h1 : try_segment_combinations fsMarker []
      ([String.toList "x"] ++ [[]]) = none := by decide
  rw [h1]
  exact eval_marker_claim

/-- C8 (amended): whenever PendingRun is non-empty and the scanner reads
the next delimiter-bounded segment, that segment is appended to PendingRun
only when it is non-empty (an empty segment leaves PendingRun unchanged);
the Resolver is then invoked over the confirmed prefix and the updated
PendingRun; on a match the match becomes the confirmed prefix and
PendingRun resets to empty, otherwise scanning continues with the updated
PendingRun. -/
theorem scan_step_pending (fs : FS) (cp : Path) (unm : List Path)
    (seg : Path) (rest : List Char) (hseg : '-' ∉ seg) (hu : unm ≠ []) :
    decodeLoop fs cp unm (seg ++ '-' :: rest) =
      (match try_segment_combinations fs cp
          (if seg ≠ [] then unm ++ [seg] else unm) with
       | some result => decodeLoop fs result [] rest
       | none =>
           decodeLoop fs cp (if seg ≠ [] then unm ++ [seg] else unm) rest) :=
  scan_step_eq hseg hu

/-- C8 witness: the step equation at the empty segment. -/
theorem scan_step_witness :
    decodeLoop fsMarker [] [String.toList "x"]
        (([] : List Char) ++ '-' :: String.toList "y") =
      (match try_segment_combinations fsMarker []
          (if ([] : Path) ≠ [] then [String.toList "x"] ++ [[]]
           else [String.toList "x"]) with
       | some result => decodeLoop fsMarker result [] (String.toList "y")
       | none => decodeLoop fsMarker []
           (if ([] : Path) ≠ [] then [String.toList "x"] ++ [[]]
            else [String.toList "x"])
           (String.toList "y")) :=
  scan_step_pending fsMarker [] [String.toList "x"] [] (String.toList "y")
    (by decide) (by decide)

/-- C9 counterexample: the encoded name `-` begins with the delimiter but
decodes to the empty string, which does not begin with the path
separator. -/
theorem absoluteness_counterexample :
    (String.toList "-").head? = some '-' ∧
    (decode_project_path fsNone [] (String.toList "-")).1 = [] ∧
    ¬((decode_project_path fsNone [] (String.toList "-")).1.head? =
        some '/') := by
  refine ⟨by decide, eval_dash, ?_⟩
  rw [eval_dash]
  decide

/-- C9 (amended): under an existence oracle that affirms only absolute
strings (every existing path begins with `/`), decoding a delimiter-led
name with a fresh cache returns either the empty string or an absolute
path.  The empty string does occur (see the counterexample), so
absoluteness as originally claimed does not hold unconditionally. -/
theorem decode_absolute_or_empty (fs : FS) (e : List Char)
    (habs : ∀ p, fs p = true → p.head? = some '/')
    (hh : e.head? = some '-') :
    (decode_project_path fs [] e).1 = [] ∨
      (decode_project_path fs [] e).1.head? = some '/' := by
  have hl : cacheLookup [] e = none := rfl
  rw [decode_uncached hl hh]
  exact decodeLoop_abs habs (Or.inl rfl)

/-- C9 witness. -/
theorem decode_absolute_witness :
    (decode_project_path (fsOf ["/a"]) [] (String.toList "-a-b")).1 = [] ∨
      (decode_project_path (fsOf ["/a"]) [] (String.toList "-a-b")).1.head? =
        some '/' :=
  decode_absolute_or_empty (fsOf ["/a"]) (String.toList "-a-b")
    (fun p hp => by
      simp only [fsOf, List.any_cons, List.any_nil, Bool.or_false,
        beq_iff_eq] at hp
      subst hp
      decide)
    (by decide)

/-- C10: for every encoded suffix that ends with the delimiter character
(including the empty suffix left by the name `-`), the scanner's loop
terminates at that final delimiter and returns the ConfirmedPrefix
component of the final loop state as-is; segments still pending are
silently discarded, with no final Resolver call and no delimiter-joined
fallback: under the all-false oracle, `-a-b-` decodes to the empty string
with `["a", "b"]` still pending, not to `/a-b`. -/
theorem trailing_delimiter_discard :
    (∀ (fs : FS) (cp : Path) (unm : List Path) (e : List Char),
        e.getLast? = some '-' →
        decodeLoop fs cp unm e = (decodeLoopState fs cp unm e).1) ∧
    (decode_project_path fsNone [] (String.toList "-a-b-")).1 = [] ∧
    (decodeLoopState fsNone [] [] (String.toList "a-b-")).2 =
      [String.toList "a", String.toList "b"] ∧
    ([] : Path) ≠ String.toList "/a-b" := by
  refine ⟨fun fs cp unm e h => decodeLoop_trailing h, eval_trailing, ?_,
    by decide⟩
  rw [eval_trailing_state]

/-- C10 witness. -/
theorem trailing_delimiter_witness :
    decodeLoop fsNone [] [] (String.toList "a-b-") =
      (decodeLoopState fsNone [] [] (String.toList "a-b-")).1 :=
  trailing_delimiter_discard.1 fsNone [] [] (String.toList "a-b-")
    (by decide)

end Cclog
